import Mathlib

/-!
# Evaluation-domain selection and Lagrange evaluation (libsnark, `src/qap/evaluation_domain.tcc`)

A shallow embedding of `get_evaluation_domain` and `lagrange_eval`.

* `size_t` values are natural numbers below `2 ^ 64`; no `size_t` operation of
  `get_evaluation_domain` can leave that range, so they are written as plain `Nat` operations.
* The literal `1u` is an `unsigned int`, so every `1u << e` is a 32-bit shift: `shl32`. A shift
  count of `32` or more is outside what C++ defines; the machine shift instruction only looks at
  the low five bits of the count, and that is what `shl32` does.
* `assert` is modelled as a failure (`Except.error`).
* The field `FieldT` is any Lean `Field` with decidable equality; `FieldT::s` is the parameter `s`.
-/

namespace libsnark

/-! ## Helpers that live outside `evaluation_domain.tcc` -/

/-- Search loop of `log2`: the first `r` at or after the start value with `n ≤ 2 ^ r`, looking at
no more than `fuel` candidates. -/
def log2_search (n : Nat) : Nat → Nat → Nat
  | 0, r => r
  | fuel + 1, r => if n ≤ 2 ^ r then r else log2_search n fuel (r + 1)

/-- Modelled from the spec: `log2` of `common/utils` is not part of the sources at hand; the
specification reads every call `log2(n)` as `ceil(log2(n))`, the least `r` with `n ≤ 2 ^ r`.
(`n` candidates always suffice since `n ≤ 2 ^ n`.) -/
def log2 (n : Nat) : Nat := log2_search n n 0

/-- The C++ expression `1u << e`. Its type is `unsigned int`, a 32-bit value. For `e ≤ 31` it is
exactly `2 ^ e`. For `e ≥ 32` the shift count exceeds the width of the type, which C++ leaves
undefined; the 32-bit shift instruction of the compiled code uses the count modulo `32`, so that
`1u << 32` is `1`, `1u << 33` is `2` and `1u << 34` is `4`. In every case the value is below
`2 ^ 32`. -/
def shl32 (e : Nat) : Nat := 2 ^ (e % 32)

/-! ## Data model -/

/-- The three domain classes `get_evaluation_domain` chooses among. -/
inductive domain_kind where
  | basic_radix2
  | extended_radix2
  | step_radix2
deriving DecidableEq, Repr

/-- What `get_evaluation_domain` hands to a domain constructor: the class that is instantiated and
the size `m` passed to it. -/
structure evaluation_domain where
  kind : domain_kind
  m : Nat
deriving DecidableEq, Repr

/-- The two assertions of `get_evaluation_domain`. -/
inductive domain_error where
  /-- The assertion `min_size > 1` fails. -/
  | min_size_assertion
  /-- The assertion `log_min_size <= (FieldT::s+1)` fails: the field is too small for the
  requested size. -/
  | log_min_size_assertion
deriving DecidableEq, Repr

deriving instance DecidableEq for Except

/-- Embedding of `get_evaluation_domain<FieldT>(min_size)` with `FieldT::s = s`.
The first component of a successful result is what was printed (the indentation written by
`print_indent` is left out), the second is the constructed domain. -/
def get_evaluation_domain (inhibit_profiling_info : Bool) (s min_size : Nat) :
    Except domain_error (List String × evaluation_domain) :=
  if ¬ (min_size > 1) then .error .min_size_assertion
  else
    let log_min_size := log2 min_size
    if ¬ (log_min_size ≤ s + 1) then .error .log_min_size_assertion
    else if min_size = shl32 log_min_size then
      if log_min_size = s + 1 then
        .ok (if ¬ inhibit_profiling_info then ["* Selected domain: extended_radix2\n"] else [],
          ⟨.extended_radix2, min_size⟩)
      else
        .ok (if ¬ inhibit_profiling_info then ["* Selected domain: basic_radix2\n"] else [],
          ⟨.basic_radix2, min_size⟩)
    else
      let big := shl32 (log2 min_size - 1)
      let small := min_size - big
      let rounded_small := shl32 (log2 small)
      if big = rounded_small then
        if log2 (big + rounded_small) < s + 1 then
          .ok (if ¬ inhibit_profiling_info then ["* Selected domain: basic_radix2\n"] else [],
            ⟨.basic_radix2, big + rounded_small⟩)
        else
          .ok (if ¬ inhibit_profiling_info then ["* Selected domain: extended_radix2\n"] else [],
            ⟨.extended_radix2, big + rounded_small⟩)
      else
        .ok (if ¬ inhibit_profiling_info then ["* Selected domain: step_radix2\n"] else [],
          ⟨.step_radix2, big + rounded_small⟩)

/-- The domain a call returns, with the printed text dropped. -/
def returned_domain (r : Except domain_error (List String × evaluation_domain)) :
    Except domain_error evaluation_domain :=
  r.map Prod.snd

/-- Ways a call of `lagrange_eval` can fail. -/
inductive lagrange_error where
  /-- The assertion `m == domain.size()` fails. -/
  | size_assertion
  /-- The assertion `idx < m` fails. -/
  | idx_assertion
  /-- Inversion of zero. -/
  | division_by_zero
deriving DecidableEq, Repr

section lagrange

variable {FieldT : Type} [Field FieldT] [DecidableEq FieldT]

/-- Modelled from the spec: the field method `inverse()` belongs to the field arithmetic, which is
not part of the sources at hand; by the specification the inversion of zero fails with a
division-by-zero error and every other element has its multiplicative inverse. -/
def inverse (x : FieldT) : Except lagrange_error FieldT :=
  if x = 0 then .error .division_by_zero else .ok x⁻¹

/-- One pass of the loop body of `lagrange_eval` on the pair `(num, denom)`. -/
def lagrange_step (domain : List FieldT) (t : FieldT) (idx : Nat) (acc : FieldT × FieldT)
    (k : Nat) : FieldT × FieldT :=
  if k = idx then acc
  else (acc.1 * (t - domain.getD k 0), acc.2 * (domain.getD idx 0 - domain.getD k 0))

/-- The pair `(num, denom)` after the loop `for (k = 0; k < m; ++k)` of `lagrange_eval`. -/
def lagrange_loop (m : Nat) (domain : List FieldT) (t : FieldT) (idx : Nat) : FieldT × FieldT :=
  (List.range m).foldl (lagrange_step domain t idx) (1, 1)

/-- Embedding of `lagrange_eval(m, domain, t, idx)`. -/
def lagrange_eval (m : Nat) (domain : List FieldT) (t : FieldT) (idx : Nat) :
    Except lagrange_error FieldT :=
  if ¬ (m = domain.length) then .error .size_assertion
  else if ¬ (idx < m) then .error .idx_assertion
  else
    let acc := lagrange_loop m domain t idx
    (inverse acc.2).map (fun denom_inverse => acc.1 * denom_inverse)

end lagrange

/-! ## The selection rule of the specification, with exact powers of two -/

/-- The algorithm of the specification (section 4.1), word for word: `k = ceil(log2(min_size))`,
exact powers `2 ^ k`, no machine width. Used to compare `get_evaluation_domain` against. -/
def select_spec (s min_size : Nat) : Except domain_error evaluation_domain :=
  if ¬ (min_size > 1) then .error .min_size_assertion
  else
    let k := Nat.clog 2 min_size
    if ¬ (k ≤ s + 1) then .error .log_min_size_assertion
    else if min_size = 2 ^ k then
      if k = s + 1 then .ok ⟨.extended_radix2, 2 ^ k⟩ else .ok ⟨.basic_radix2, 2 ^ k⟩
    else
      let big := 2 ^ (k - 1)
      let small := min_size - big
      let rounded_small := 2 ^ Nat.clog 2 small
      if big = rounded_small then
        if Nat.clog 2 (big + rounded_small) < s + 1 then .ok ⟨.basic_radix2, big + rounded_small⟩
        else .ok ⟨.extended_radix2, big + rounded_small⟩
      else .ok ⟨.step_radix2, big + rounded_small⟩

/-! ## Vocabulary of the claims -/

/-- The sizes each domain class admits over a field of 2-adicity `s` (header comment of
`evaluation_domain.tcc`): `2 ^ k` with `k ≤ s` for basic radix-2, `2 ^ (s + 1)` for extended
radix-2, `2 ^ k + 2 ^ r` with `r < k ≤ s` for step radix-2. -/
def admissible_size (s : Nat) : domain_kind → Nat → Prop
  | .basic_radix2, x => ∃ k, k ≤ s ∧ x = 2 ^ k
  | .extended_radix2, x => x = 2 ^ (s + 1)
  | .step_radix2, x => ∃ k r, r < k ∧ k ≤ s ∧ x = 2 ^ k + 2 ^ r

/-- A power of two or a sum of two distinct powers of two. -/
def at_most_two_bits (x : Nat) : Prop :=
  (∃ a, x = 2 ^ a) ∨ ∃ a b, b < a ∧ x = 2 ^ a + 2 ^ b

/-- The formula of the specification (section 4.2) for the `idx`-th Lagrange basis polynomial of
the first `m` domain points at `t`: the product over all `k ≠ idx`, `k < m`, of
`(t - domain[k]) / (domain[idx] - domain[k])`. -/
def lagrange_basis_formula {FieldT : Type} [Field FieldT] (m : Nat) (domain : List FieldT)
    (t : FieldT) (idx : Nat) : FieldT :=
  ∏ k in (Finset.range m).erase idx,
    (t - domain.getD k 0) / (domain.getD idx 0 - domain.getD k 0)


/-! ## Local values of `get_evaluation_domain` -/

/-- The local `big` of `get_evaluation_domain`: `1u<<(log2(min_size)-1)`. -/
def big (min_size : Nat) : Nat := shl32 (log2 min_size - 1)

/-- The local `small` of `get_evaluation_domain`: `min_size - big`. -/
def small (min_size : Nat) : Nat := min_size - big min_size

/-- The local `rounded_small` of `get_evaluation_domain`: `1u<<log2(small)`. -/
def rounded_small (min_size : Nat) : Nat := shl32 (log2 (small min_size))

/-- The shift counts `e` of the expressions `1u << e` that a call evaluates, in the order of
evaluation: `log_min_size` in the comparison with `min_size` and, when that comparison fails,
`log2(min_size)-1` for `big` and `log2(small)` for `rounded_small`. A call that stops at an
assertion evaluates no shift. -/
def evaluated_shifts (s min_size : Nat) : List Nat :=
  if ¬ (min_size > 1) then []
  else
    let log_min_size := log2 min_size
    if ¬ (log_min_size ≤ s + 1) then []
    else if min_size = shl32 log_min_size then [log_min_size]
    else [log_min_size, log2 min_size - 1, log2 (small min_size)]


/-! ## Pairing engine of `bn128_pp.hpp`: the Miller loops

`bn128_pp.hpp` only declares `miller_loop<bn128_pp>` and `double_miller_loop<bn128_pp>`; their
bodies are not part of the sources at hand. The definitions below follow section 4.3 of the
specification. `Fqk` stands for `bn128_Fq12` (only its commutative multiplication is used),
`G1_precomp` for `bn128_ate_G1_precomp`, and a `bn128_ate_G2_precomp` is its sequence of
line-function coefficients. The loop count and the evaluation of a line function at a point are
owned by the curve arithmetic and are parameters. -/

/-- Modelled from the spec: the curve constants the Miller loop needs and that the specification
leaves to the curve arithmetic: the bits of the loop count, most significant first, and the
evaluation of a line function, given by its coefficients, at a precomputed point of `G1`. -/
structure miller_params (Fqk G1_precomp Coeff : Type) where
  loop_count : List Bool
  line : Coeff → G1_precomp → Fqk

section miller

variable {Fqk G1_precomp Coeff : Type} [CommMonoid Fqk]

/-- Modelled from the spec: step 2 of Miller's algorithm (the body of `miller_loop` is missing).
For each bit of the loop count: square the accumulator, multiply in the current doubling line
evaluated at `P`, and if the bit is set multiply in the corresponding addition line as well. The
lines are taken from the coefficient sequence in order; the result is the accumulator and the
coefficients not yet used, or `none` when the sequence ends too early. -/
def miller_loop_bits (line : Coeff → G1_precomp → Fqk) (prec_P : G1_precomp) :
    List Bool → List Coeff → Fqk → Option (Fqk × List Coeff)
  | [], coeffs, f => some (f, coeffs)
  | bit :: bits, coeffs, f =>
    match coeffs with
    | [] => none
    | c_dbl :: coeffs =>
      if bit then
        match coeffs with
        | [] => none
        | c_add :: coeffs =>
          miller_loop_bits line prec_P bits coeffs
            (f * f * line c_dbl prec_P * line c_add prec_P)
      else miller_loop_bits line prec_P bits coeffs (f * f * line c_dbl prec_P)

/-- Modelled from the spec: step 3 of Miller's algorithm, the final line-function corrections:
every coefficient left after the loop is evaluated at `P` and multiplied into the accumulator. -/
def final_corrections (line : Coeff → G1_precomp → Fqk) (prec_P : G1_precomp)
    (coeffs : List Coeff) (f : Fqk) : Fqk :=
  coeffs.foldl (fun acc c => acc * line c prec_P) f

/-- Modelled from the spec: `miller_loop(prec_P, prec_Q)`, whose body is missing: start from
`f = 1`, run the loop over the bits of the loop count, apply the final corrections, return `f`. -/
def miller_loop (params : miller_params Fqk G1_precomp Coeff) (prec_P : G1_precomp)
    (prec_Q : List Coeff) : Option Fqk :=
  match miller_loop_bits params.line prec_P params.loop_count prec_Q 1 with
  | none => none
  | some (f, rest) => some (final_corrections params.line prec_P rest f)

/-- Modelled from the spec: the shared iteration of `double_miller_loop` (its body is missing):
one accumulator, squared once per bit of the loop count, into which the lines of both pairs are
multiplied. -/
def double_miller_loop_bits (line : Coeff → G1_precomp → Fqk) (prec_P1 prec_P2 : G1_precomp) :
    List Bool → List Coeff → List Coeff → Fqk → Option (Fqk × List Coeff × List Coeff)
  | [], coeffs1, coeffs2, f => some (f, coeffs1, coeffs2)
  | bit :: bits, coeffs1, coeffs2, f =>
    match coeffs1, coeffs2 with
    | c_dbl1 :: coeffs1, c_dbl2 :: coeffs2 =>
      if bit then
        match coeffs1, coeffs2 with
        | c_add1 :: coeffs1, c_add2 :: coeffs2 =>
          double_miller_loop_bits line prec_P1 prec_P2 bits coeffs1 coeffs2
            (f * f * line c_dbl1 prec_P1 * line c_dbl2 prec_P2 *
              line c_add1 prec_P1 * line c_add2 prec_P2)
        | _, _ => none
      else
        double_miller_loop_bits line prec_P1 prec_P2 bits coeffs1 coeffs2
          (f * f * line c_dbl1 prec_P1 * line c_dbl2 prec_P2)
    | _, _ => none

/-- Modelled from the spec: `double_miller_loop(prec_P1, prec_Q1, prec_P2, prec_Q2)`, whose body
is missing: the two Miller loops run in one shared iteration over the loop count, followed by the
final corrections of both pairs. -/
def double_miller_loop (params : miller_params Fqk G1_precomp Coeff)
    (prec_P1 : G1_precomp) (prec_Q1 : List Coeff) (prec_P2 : G1_precomp)
    (prec_Q2 : List Coeff) : Option Fqk :=
  match double_miller_loop_bits params.line prec_P1 prec_P2 params.loop_count prec_Q1 prec_Q2 1
    with
  | none => none
  | some (f, rest1, rest2) =>
    some (final_corrections params.line prec_P2 rest2
      (final_corrections params.line prec_P1 rest1 f))

end miller

/-! ## `log2` is the ceiling of the binary logarithm -/

theorem log2_search_spec (n : Nat) :
    ∀ fuel r, n ≤ 2 ^ (r + fuel) → (∀ j, j < r → ¬ n ≤ 2 ^ j) →
      n ≤ 2 ^ log2_search n fuel r ∧ ∀ j, j < log2_search n fuel r → ¬ n ≤ 2 ^ j := by
  intro fuel
  induction fuel with
  | zero =>
    intro r h hlow
    exact ⟨by simpa [log2_search] using h, by simpa [log2_search] using hlow⟩
  | succ fuel ih =>
    intro r h hlow
    unfold log2_search
    split
    · next hr => exact ⟨hr, hlow⟩
    · next hr =>
      apply ih (r + 1)
      · have : r + 1 + fuel = r + (fuel + 1) := by omega
        rw [this]; exact h
      · intro j hj
        rcases Nat.lt_succ_iff_lt_or_eq.mp hj with hj | hj
        · exact hlow j hj
        · subst hj; exact hr

theorem log2_eq_clog (n : Nat) : log2 n = Nat.clog 2 n := by
  have h := log2_search_spec n n 0 (by simpa using (Nat.lt_two_pow n).le) (by simp)
  unfold log2
  apply le_antisymm
  · by_contra hc
    exact h.2 _ (not_le.mp hc) (Nat.le_pow_clog (by norm_num) n)
  · exact (Nat.le_pow_iff_clog_le (by norm_num)).mp h.1

/-! ## Agreement of the code with the specified rule for requests up to `2 ^ 32` -/

theorem shl32_of_le {e : Nat} (h : e ≤ 31) : shl32 e = 2 ^ e := by
  unfold shl32
  rw [Nat.mod_eq_of_lt (by omega)]

/-- Every `1u << e` is a power of two with an exponent of at most `31`. -/
theorem shl32_eq_pow (e : Nat) : ∃ a, a ≤ 31 ∧ shl32 e = 2 ^ a :=
  ⟨e % 32, by omega, rfl⟩

theorem shl32_le (e : Nat) : shl32 e ≤ 2 ^ 31 := by
  unfold shl32
  exact Nat.pow_le_pow_right (by norm_num) (by omega)

theorem shl32_lt (e : Nat) : shl32 e < 2 ^ 32 :=
  lt_of_le_of_lt (shl32_le e) (by norm_num)

/-- For `n > 1` with `k = ceil(log2 n)`: `2 ^ (k - 1) < n ≤ 2 ^ k` and `k ≥ 1`. -/
theorem clog_bounds {n : Nat} (hn : 1 < n) :
    0 < Nat.clog 2 n ∧ 2 ^ (Nat.clog 2 n - 1) < n ∧ n ≤ 2 ^ Nat.clog 2 n :=
  ⟨Nat.clog_pos (by norm_num) hn, Nat.pow_pred_clog_lt_self (by norm_num) hn,
    Nat.le_pow_clog (by norm_num) n⟩

/-- The remainder `small = n - 2 ^ (k - 1)` rounds up to at most `2 ^ (k - 1)`. -/
theorem clog_small_le {n : Nat} (hn : 1 < n) :
    Nat.clog 2 (n - 2 ^ (Nat.clog 2 n - 1)) ≤ Nat.clog 2 n - 1 := by
  obtain ⟨hk, hlo, hhi⟩ := clog_bounds hn
  apply (Nat.le_pow_iff_clog_le (by norm_num)).mp
  have h2 : 2 ^ Nat.clog 2 n = 2 * 2 ^ (Nat.clog 2 n - 1) := by
    conv_lhs => rw [← Nat.sub_add_cancel hk]
    rw [pow_succ]; ring
  omega

/-- The three outcomes of the specified rule on an admissible request, with
`k = ceil(log2 n)` and `r = ceil(log2 (n - 2 ^ (k - 1)))`. -/
theorem select_spec_cases (s n : Nat) (hn : 1 < n) (hk : Nat.clog 2 n ≤ s + 1) :
    (n = 2 ^ Nat.clog 2 n ∧
      select_spec s n = .ok ⟨if Nat.clog 2 n = s + 1 then .extended_radix2 else .basic_radix2,
        2 ^ Nat.clog 2 n⟩) ∨
    (n ≠ 2 ^ Nat.clog 2 n ∧ Nat.clog 2 (n - 2 ^ (Nat.clog 2 n - 1)) = Nat.clog 2 n - 1 ∧
      select_spec s n = .ok ⟨if Nat.clog 2 n < s + 1 then .basic_radix2 else .extended_radix2,
        2 ^ Nat.clog 2 n⟩) ∨
    (n ≠ 2 ^ Nat.clog 2 n ∧ Nat.clog 2 (n - 2 ^ (Nat.clog 2 n - 1)) < Nat.clog 2 n - 1 ∧
      select_spec s n = .ok ⟨.step_radix2,
        2 ^ (Nat.clog 2 n - 1) + 2 ^ Nat.clog 2 (n - 2 ^ (Nat.clog 2 n - 1))⟩) := by
  obtain ⟨hpos, hlo, hhi⟩ := clog_bounds hn
  have hr := clog_small_le hn
  have h2 : 2 ^ (Nat.clog 2 n - 1) + 2 ^ (Nat.clog 2 n - 1) = 2 ^ Nat.clog 2 n := by
    conv_rhs => rw [← Nat.sub_add_cancel hpos]
    rw [pow_succ]; ring
  by_cases hpow : n = 2 ^ Nat.clog 2 n
  · left
    refine ⟨hpow, ?_⟩
    unfold select_spec
    simp only [gt_iff_lt, hn, not_true_eq_false, if_false, hk, ← hpow, if_true]
    split <;> rfl
  · right
    rcases Nat.lt_or_eq_of_le hr with hlt | heq
    · right
      refine ⟨hpow, hlt, ?_⟩
      have hne : 2 ^ (Nat.clog 2 n - 1) ≠ 2 ^ Nat.clog 2 (n - 2 ^ (Nat.clog 2 n - 1)) := by
        intro h
        have := Nat.pow_right_injective (le_refl 2) h
        omega
      unfold select_spec
      simp only [gt_iff_lt, hn, not_true_eq_false, if_false, hk, hpow, hne]
    · left
      refine ⟨hpow, heq, ?_⟩
      unfold select_spec
      simp only [gt_iff_lt, hn, not_true_eq_false, if_false, hk, hpow, heq, if_true, h2,
        Nat.clog_pow 2 _ Nat.one_lt_two]
      by_cases h : Nat.clog 2 n < s + 1 <;> simp [h]

/-- As long as `ceil(log2 min_size) ≤ 32` the shifts of `get_evaluation_domain` that decide the
result have a count of at most `31`, and the code returns what the specified rule returns. -/
theorem returned_domain_eq_select_spec (inhibit_profiling_info : Bool) (s n : Nat)
    (h32 : Nat.clog 2 n ≤ 32) :
    returned_domain (get_evaluation_domain inhibit_profiling_info s n) = select_spec s n := by
  by_cases hn : 1 < n
  swap
  · simp [returned_domain, get_evaluation_domain, select_spec, hn, Except.map]
  by_cases hk : Nat.clog 2 n ≤ s + 1
  swap
  · simp [returned_domain, get_evaluation_domain, select_spec, hn, hk, log2_eq_clog, Except.map]
  obtain ⟨hpos, hlo, hhi⟩ := clog_bounds hn
  have hr := clog_small_le hn
  have hbig : shl32 (Nat.clog 2 n - 1) = 2 ^ (Nat.clog 2 n - 1) := shl32_of_le (by omega)
  have hsmall : shl32 (Nat.clog 2 (n - 2 ^ (Nat.clog 2 n - 1))) =
      2 ^ Nat.clog 2 (n - 2 ^ (Nat.clog 2 n - 1)) := shl32_of_le (by omega)
  have h2 : 2 ^ (Nat.clog 2 n - 1) + 2 ^ (Nat.clog 2 n - 1) = 2 ^ Nat.clog 2 n := by
    conv_rhs => rw [← Nat.sub_add_cancel hpos]
    rw [pow_succ]; ring
  rcases Nat.lt_or_eq_of_le h32 with hlt | heq
  · have hkk : shl32 (Nat.clog 2 n) = 2 ^ Nat.clog 2 n := shl32_of_le (by omega)
    unfold returned_domain get_evaluation_domain select_spec
    simp only [log2_eq_clog, hbig, hsmall, hkk, gt_iff_lt, hn, not_true_eq_false, if_false, hk]
    by_cases hpow : n = 2 ^ Nat.clog 2 n
    · simp only [← hpow, if_true]
      split <;> rfl
    · simp only [hpow, if_false]
      split
      · split <;> rfl
      · rfl
  · have hkk : shl32 (Nat.clog 2 n) = 1 := by rw [heq]; rfl
    have hn1 : n ≠ 1 := by omega
    unfold returned_domain get_evaluation_domain
    simp only [log2_eq_clog, hbig, hsmall, hkk, gt_iff_lt, hn, not_true_eq_false, if_false, hk,
      hn1]
    rcases select_spec_cases s n hn hk with ⟨hpow, hs⟩ | ⟨hpow, hre, hs⟩ | ⟨hpow, hre, hs⟩
    · have hsm : n - 2 ^ (Nat.clog 2 n - 1) = 2 ^ (Nat.clog 2 n - 1) := by omega
      rw [hs]
      simp only [hsm, Nat.clog_pow 2 _ Nat.one_lt_two, if_true, h2]
      by_cases hks : Nat.clog 2 n = s + 1
      · simp [hks, Except.map]
      · have : Nat.clog 2 n < s + 1 := by omega
        simp [hks, this, Except.map]
    · rw [hs]
      simp only [hre, if_true, h2, Nat.clog_pow 2 _ Nat.one_lt_two]
      by_cases hks : Nat.clog 2 n < s + 1 <;> simp [hks, Except.map]
    · rw [hs]
      have hne : 2 ^ (Nat.clog 2 n - 1) ≠ 2 ^ Nat.clog 2 (n - 2 ^ (Nat.clog 2 n - 1)) := by
        intro h
        have := Nat.pow_right_injective (le_refl 2) h
        omega
      simp [hne, Except.map]

/-! ## Domain selection: the branch for sizes that are not a power of two -/

/-- When the comparison with `1u << log_min_size` fails, the result is read off the locals `big`
and `rounded_small`. -/
theorem returned_domain_not_pow (inhibit_profiling_info : Bool) (s n : Nat) (hn : 1 < n)
    (hk : log2 n ≤ s + 1) (hne : n ≠ shl32 (log2 n)) :
    returned_domain (get_evaluation_domain inhibit_profiling_info s n) =
      .ok ⟨if big n = rounded_small n then
          (if log2 (big n + rounded_small n) < s + 1 then .basic_radix2 else .extended_radix2)
        else .step_radix2, big n + rounded_small n⟩ := by
  unfold returned_domain get_evaluation_domain
  simp only [gt_iff_lt, hn, not_true_eq_false, if_false, hk, hne, big, rounded_small, small]
  split
  · split <;> rfl
  · rfl

/-! ## Domain selection beyond `2 ^ 32`, where the shift count wraps around -/

/-- For `ceil(log2 min_size) ≥ 33` the comparison with `1u << log_min_size` fails, because the
right-hand side is a 32-bit value. -/
theorem ne_shl32_of_clog_gt {n : Nat} (hn : 1 < n) (h33 : 33 ≤ Nat.clog 2 n) (e : Nat) :
    n ≠ shl32 e := by
  obtain ⟨_, hlo, _⟩ := clog_bounds hn
  have h1 : 2 ^ 32 ≤ 2 ^ (Nat.clog 2 n - 1) := Nat.pow_le_pow_right (by norm_num) (by omega)
  have h2 := shl32_lt e
  omega

/-- For `ceil(log2 min_size) ≥ 33` the call takes the branch of the locals `big` and
`rounded_small`, both 32-bit powers of two: it constructs basic radix-2 when they are equal and
step radix-2 otherwise, with a size of at most `2 ^ 32`, which is below the request. -/
theorem returned_domain_of_clog_gt (inhibit_profiling_info : Bool) (s n : Nat) (hn : 1 < n)
    (hk : Nat.clog 2 n ≤ s + 1) (h33 : 33 ≤ Nat.clog 2 n) :
    returned_domain (get_evaluation_domain inhibit_profiling_info s n) =
        .ok ⟨if big n = rounded_small n then .basic_radix2 else .step_radix2,
          big n + rounded_small n⟩ ∧
      big n + rounded_small n ≤ 2 ^ 32 ∧ big n + rounded_small n < n := by
  obtain ⟨_, hlo, _⟩ := clog_bounds hn
  have h1 : 2 ^ 32 ≤ 2 ^ (Nat.clog 2 n - 1) := Nat.pow_le_pow_right (by norm_num) (by omega)
  have hb : big n ≤ 2 ^ 31 := shl32_le _
  have hr : rounded_small n ≤ 2 ^ 31 := shl32_le _
  have hsum : big n + rounded_small n ≤ 2 ^ 32 := by omega
  refine ⟨?_, hsum, by omega⟩
  rw [returned_domain_not_pow inhibit_profiling_info s n hn (by rw [log2_eq_clog]; exact hk)
    (ne_shl32_of_clog_gt hn h33 _)]
  have hlog : log2 (big n + rounded_small n) < s + 1 := by
    rw [log2_eq_clog]
    have := (Nat.le_pow_iff_clog_le Nat.one_lt_two).mp hsum
    omega
  simp only [hlog, if_true]

/-! ## Properties of the specified rule -/

theorem two_pow_pred_add_self {k : Nat} (hk : 0 < k) : 2 ^ (k - 1) + 2 ^ (k - 1) = 2 ^ k := by
  conv_rhs => rw [← Nat.sub_add_cancel hk]
  rw [pow_succ]; ring

/-- The specified rule succeeds on every admissible request, with a size that is at least the
request and at most `2 ^ ceil(log2 n)`. -/
theorem select_spec_size (s n : Nat) (hn : 1 < n) (hk : Nat.clog 2 n ≤ s + 1) :
    ∃ d, select_spec s n = .ok d ∧ n ≤ d.m ∧ d.m ≤ 2 ^ Nat.clog 2 n := by
  obtain ⟨hpos, hlo, hhi⟩ := clog_bounds hn
  rcases select_spec_cases s n hn hk with ⟨_, hs⟩ | ⟨_, _, hs⟩ | ⟨_, hre, hs⟩
  · exact ⟨_, hs, hhi, le_refl _⟩
  · exact ⟨_, hs, hhi, le_refl _⟩
  · refine ⟨_, hs, ?_, ?_⟩
    · have := Nat.le_pow_clog Nat.one_lt_two (n - 2 ^ (Nat.clog 2 n - 1))
      simp only
      omega
    · have h2 := two_pow_pred_add_self hpos
      have : 2 ^ Nat.clog 2 (n - 2 ^ (Nat.clog 2 n - 1)) ≤ 2 ^ (Nat.clog 2 n - 1) :=
        Nat.pow_le_pow_right (by norm_num) hre.le
      simp only
      omega

/-- The size chosen by the specified rule has the shape its class requires. -/
theorem select_spec_shape (s n : Nat) (hn : 1 < n) (hk : Nat.clog 2 n ≤ s + 1) :
    ∃ d, select_spec s n = .ok d ∧ admissible_size s d.kind d.m := by
  obtain ⟨hpos, hlo, hhi⟩ := clog_bounds hn
  rcases select_spec_cases s n hn hk with ⟨_, hs⟩ | ⟨_, _, hs⟩ | ⟨_, hre, hs⟩
  · refine ⟨_, hs, ?_⟩
    by_cases h : Nat.clog 2 n = s + 1
    · simp [h, admissible_size]
    · simp only [h, if_false, admissible_size]
      exact ⟨_, by omega, rfl⟩
  · refine ⟨_, hs, ?_⟩
    by_cases h : Nat.clog 2 n < s + 1
    · simp only [h, if_true, admissible_size]
      exact ⟨_, by omega, rfl⟩
    · have : Nat.clog 2 n = s + 1 := by omega
      simp [h, this, admissible_size]
  · exact ⟨_, hs, _, _, hre, by omega, rfl⟩

/-- Every number with at most two bits set that is at least `n` is at least the size the
specified rule chooses for `n`. -/
theorem select_spec_least (s n : Nat) (hn : 1 < n) (hk : Nat.clog 2 n ≤ s + 1) (x : Nat)
    (hx : at_most_two_bits x) (hnx : n ≤ x) :
    ∃ d, select_spec s n = .ok d ∧ d.m ≤ x := by
  obtain ⟨hpos, hlo, hhi⟩ := clog_bounds hn
  obtain ⟨d, hd, hge, hle⟩ := select_spec_size s n hn hk
  refine ⟨d, hd, ?_⟩
  by_cases hbig : 2 ^ Nat.clog 2 n ≤ x
  · exact hle.trans hbig
  have hxlt : x < 2 ^ Nat.clog 2 n := not_le.mp hbig
  rcases hx with ⟨a, rfl⟩ | ⟨a, b, hba, rfl⟩
  · have := (Nat.le_pow_iff_clog_le Nat.one_lt_two).mp hnx
    exact absurd (Nat.pow_le_pow_right (by norm_num) this) hbig
  · have hb0 : 0 < 2 ^ b := Nat.two_pow_pos b
    have ha1 : a < Nat.clog 2 n := by
      by_contra hc
      have : 2 ^ Nat.clog 2 n ≤ 2 ^ a := Nat.pow_le_pow_right (by norm_num) (not_lt.mp hc)
      omega
    have ha2 : Nat.clog 2 n - 1 ≤ a := by
      by_contra hc
      have h1 : a + 1 ≤ Nat.clog 2 n - 1 := by omega
      have h2 : 2 ^ (a + 1) ≤ 2 ^ (Nat.clog 2 n - 1) := Nat.pow_le_pow_right (by norm_num) h1
      have h3 : 2 ^ b < 2 ^ a := Nat.pow_lt_pow_right (by norm_num) hba
      rw [pow_succ] at h2
      omega
    have ha : a = Nat.clog 2 n - 1 := by omega
    subst ha
    have hsm : n - 2 ^ (Nat.clog 2 n - 1) ≤ 2 ^ b := by omega
    have hrb := (Nat.le_pow_iff_clog_le Nat.one_lt_two).mp hsm
    rcases select_spec_cases s n hn hk with ⟨hpow, _⟩ | ⟨_, hre, _⟩ | ⟨_, _, hs⟩
    · omega
    · omega
    · rw [hs] at hd
      cases hd
      have : 2 ^ Nat.clog 2 (n - 2 ^ (Nat.clog 2 n - 1)) ≤ 2 ^ b :=
        Nat.pow_le_pow_right (by norm_num) hrb
      simp only
      omega

theorem admissible_size_two_bits {s : Nat} {kind : domain_kind} {x : Nat}
    (h : admissible_size s kind x) : at_most_two_bits x := by
  cases kind with
  | basic_radix2 => obtain ⟨k, _, rfl⟩ := h; exact Or.inl ⟨k, rfl⟩
  | extended_radix2 => exact Or.inl ⟨s + 1, h⟩
  | step_radix2 => obtain ⟨k, r, hr, _, rfl⟩ := h; exact Or.inr ⟨k, r, hr, rfl⟩

/-- The specified rule is monotone in the request. -/
theorem select_spec_mono (s n : Nat) (hn : 1 < n) (hk : Nat.clog 2 (n + 1) ≤ s + 1) :
    ∃ d d', select_spec s n = .ok d ∧ select_spec s (n + 1) = .ok d' ∧ d.m ≤ d'.m := by
  have hk0 : Nat.clog 2 n ≤ s + 1 := (Nat.clog_mono_right 2 (Nat.le_succ n)).trans hk
  obtain ⟨d', hd', hsh⟩ := select_spec_shape s (n + 1) (by omega) hk
  obtain ⟨d'', hd'', hge, _⟩ := select_spec_size s (n + 1) (by omega) hk
  rw [hd'] at hd''
  cases hd''
  obtain ⟨d, hd, hle⟩ := select_spec_least s n hn hk0 d'.m (admissible_size_two_bits hsh)
    (by omega)
  exact ⟨d, d', hd, hd', hle⟩

/-! ## Lagrange evaluation -/

/-- After the loop, `num` and `denom` are the two products over all `k ≠ idx`, `k < m`. -/
theorem lagrange_loop_eq {FieldT : Type} [Field FieldT] (m : Nat) (domain : List FieldT)
    (t : FieldT) (idx : Nat) :
    lagrange_loop m domain t idx =
      (∏ k in (Finset.range m).erase idx, (t - domain.getD k 0),
        ∏ k in (Finset.range m).erase idx, (domain.getD idx 0 - domain.getD k 0)) := by
  induction m with
  | zero => simp [lagrange_loop]
  | succ m ih =>
    unfold lagrange_loop at ih ⊢
    rw [List.range_succ, List.foldl_append, ih]
    simp only [List.foldl_cons, List.foldl_nil, lagrange_step]
    by_cases h : m = idx
    · subst h
      simp [Finset.range_succ]
    · have hnot : m ∉ (Finset.range m).erase idx := by simp
      rw [if_neg h, Finset.range_succ, Finset.erase_insert_of_ne h, Finset.prod_insert hnot,
        Finset.prod_insert hnot]
      simp only [mul_comm]

/-- The denominator is nonzero when `domain[idx]` differs from every other point. -/
theorem lagrange_denom_ne_zero {FieldT : Type} [Field FieldT] (m : Nat) (domain : List FieldT)
    (idx : Nat)
    (hdistinct : ∀ k, k < m → k ≠ idx → domain.getD k 0 ≠ domain.getD idx 0) :
    (∏ k in (Finset.range m).erase idx, (domain.getD idx 0 - domain.getD k 0)) ≠ 0 := by
  rw [Finset.prod_ne_zero_iff]
  intro k hk
  rw [Finset.mem_erase, Finset.mem_range] at hk
  exact sub_ne_zero.mpr (hdistinct k hk.2 hk.1).symm

/-- Under its assertions and with `domain[idx]` different from every other point, the code
returns the value of the basis formula. -/
theorem lagrange_eval_eq_formula {FieldT : Type} [Field FieldT] [DecidableEq FieldT] (m : Nat)
    (domain : List FieldT) (t : FieldT) (idx : Nat) (hm : m = domain.length) (hidx : idx < m)
    (hdistinct : ∀ k, k < m → k ≠ idx → domain.getD k 0 ≠ domain.getD idx 0) :
    lagrange_eval m domain t idx = .ok (lagrange_basis_formula m domain t idx) := by
  have hden := lagrange_denom_ne_zero m domain idx hdistinct
  unfold lagrange_eval
  rw [if_neg (not_not.mpr hm), if_neg (not_not.mpr hidx)]
  simp only [lagrange_loop_eq, inverse, if_neg hden, Except.map, lagrange_basis_formula]
  rw [Finset.prod_div_distrib, div_eq_mul_inv]

theorem nodup_getD_ne {FieldT : Type} [Field FieldT] {domain : List FieldT} (hnodup : domain.Nodup) {i j : Nat}
    (hi : i < domain.length) (hj : j < domain.length) (hij : i ≠ j) :
    domain.getD i 0 ≠ domain.getD j 0 := by
  rw [List.getD_eq_getElem _ _ hi, List.getD_eq_getElem _ _ hj]
  intro h
  exact hij ((List.Nodup.getElem_inj_iff hnodup).mp h)

/-- With pairwise distinct points the basis formula takes the value `1` at its own point and `0`
at every other domain point. -/
theorem lagrange_basis_formula_at_point {FieldT : Type} [Field FieldT] (m : Nat)
    (domain : List FieldT) (idx j : Nat) (hm : m = domain.length) (hnodup : domain.Nodup)
    (hidx : idx < m) (hj : j < m) :
    lagrange_basis_formula m domain (domain.getD j 0) idx = if j = idx then 1 else 0 := by
  unfold lagrange_basis_formula
  by_cases h : j = idx
  · subst h
    rw [if_pos rfl]
    apply Finset.prod_eq_one
    intro k hk
    rw [Finset.mem_erase, Finset.mem_range] at hk
    exact div_self (sub_ne_zero.mpr
      (nodup_getD_ne hnodup (hm ▸ hj) (hm ▸ hk.2) (Ne.symm hk.1)))
  · rw [if_neg h]
    apply Finset.prod_eq_zero (Finset.mem_erase.mpr ⟨h, Finset.mem_range.mpr hj⟩)
    simp

/-- With pairwise distinct points the values of the basis formulas at any `t` add up to one. -/
theorem lagrange_basis_formula_sum {FieldT : Type} [Field FieldT] (m : Nat)
    (domain : List FieldT) (t : FieldT) (hm : m = domain.length) (hpos : 1 ≤ m)
    (hnodup : domain.Nodup) :
    ∑ idx in Finset.range m, lagrange_basis_formula m domain t idx = 1 := by
  have hinj : Set.InjOn (fun k => domain.getD k 0) (Finset.range m : Set Nat) := by
    intro i hi j hj hij
    by_contra hne
    rw [Finset.mem_coe, Finset.mem_range] at hi hj
    exact nodup_getD_ne hnodup (hm ▸ hi) (hm ▸ hj) hne hij
  have h := congrArg (Polynomial.eval t)
    (Lagrange.sum_basis hinj (Finset.nonempty_range_iff.mpr (by omega)))
  simp only [Polynomial.eval_finset_sum, Lagrange.basis, Polynomial.eval_prod,
    Lagrange.basisDivisor, Polynomial.eval_mul, Polynomial.eval_C, Polynomial.eval_sub,
    Polynomial.eval_X, Polynomial.eval_one] at h
  rw [← h]
  unfold lagrange_basis_formula
  refine Finset.sum_congr rfl (fun i _ => Finset.prod_congr rfl (fun k _ => ?_))
  rw [div_eq_mul_inv, mul_comm]

/-! ## Domain selection: what holds of the code while `ceil(log2 min_size) ≤ 32` -/

/-- For requests up to `2 ^ 32` the code succeeds with a size that is at least the request. -/
theorem get_evaluation_domain_size_ge_of_clog_le (inhibit_profiling_info : Bool) (s n : Nat)
    (hn : 1 < n) (hk : Nat.clog 2 n ≤ s + 1) (h32 : Nat.clog 2 n ≤ 32) :
    ∃ d, returned_domain (get_evaluation_domain inhibit_profiling_info s n) = .ok d ∧
      n ≤ d.m ∧ d.m ≤ 2 ^ Nat.clog 2 n := by
  rw [returned_domain_eq_select_spec _ _ _ h32]
  exact select_spec_size s n hn hk

/-- For requests up to `2 ^ 32` the returned size has the shape its class requires. -/
theorem get_evaluation_domain_shape_of_clog_le (inhibit_profiling_info : Bool) (s n : Nat)
    (hn : 1 < n) (hk : Nat.clog 2 n ≤ s + 1) (h32 : Nat.clog 2 n ≤ 32) :
    ∃ d, returned_domain (get_evaluation_domain inhibit_profiling_info s n) = .ok d ∧
      admissible_size s d.kind d.m := by
  rw [returned_domain_eq_select_spec _ _ _ h32]
  exact select_spec_shape s n hn hk

/-- No number with at most two bits set lies between the request and the returned size. This
holds for every admissible request: beyond `2 ^ 32` the returned size is below the request. -/
theorem get_evaluation_domain_least (inhibit_profiling_info : Bool) (s n : Nat)
    (hn : 1 < n) (hk : Nat.clog 2 n ≤ s + 1) (x : Nat)
    (hx : at_most_two_bits x) (hnx : n ≤ x) :
    ∃ d, returned_domain (get_evaluation_domain inhibit_profiling_info s n) = .ok d ∧
      d.m ≤ x := by
  by_cases h32 : Nat.clog 2 n ≤ 32
  · rw [returned_domain_eq_select_spec _ _ _ h32]
    exact select_spec_least s n hn hk x hx hnx
  · obtain ⟨hret, _, hlt⟩ :=
      returned_domain_of_clog_gt inhibit_profiling_info s n hn hk (by omega)
    exact ⟨_, hret, by simp only; omega⟩

/-- Beyond `2 ^ 32` the returned size still has the shape its class requires: the sum of two
equal 32-bit powers of two is a power of two with exponent at most `32 ≤ s`, and the sum of two
different ones is a step radix-2 size. -/
theorem get_evaluation_domain_shape_of_clog_gt (inhibit_profiling_info : Bool) (s n : Nat)
    (hn : 1 < n) (hk : Nat.clog 2 n ≤ s + 1) (h33 : 33 ≤ Nat.clog 2 n) :
    ∃ d, returned_domain (get_evaluation_domain inhibit_profiling_info s n) = .ok d ∧
      admissible_size s d.kind d.m := by
  obtain ⟨hret, _, _⟩ := returned_domain_of_clog_gt inhibit_profiling_info s n hn hk h33
  obtain ⟨a, ha, hbig⟩ := shl32_eq_pow (log2 n - 1)
  obtain ⟨b, hb, hrs⟩ := shl32_eq_pow (log2 (small n))
  have hbig' : big n = 2 ^ a := hbig
  have hrs' : rounded_small n = 2 ^ b := hrs
  refine ⟨_, hret, ?_⟩
  by_cases h : big n = rounded_small n
  · simp only [h, if_true, admissible_size]
    exact ⟨b + 1, by omega, by rw [hrs', pow_succ]; ring⟩
  · simp only [h, if_false, admissible_size]
    have hab : a ≠ b := by
      intro hab
      exact h (by rw [hbig', hrs', hab])
    rcases Nat.lt_or_gt_of_ne hab with hlt | hgt
    · exact ⟨b, a, hlt, by omega, by rw [hbig', hrs', add_comm]⟩
    · exact ⟨a, b, hgt, by omega, by rw [hbig', hrs']⟩

/-- For requests below `2 ^ 32` the returned size does not shrink when the request grows by one. -/
theorem get_evaluation_domain_mono_of_clog_le (inhibit_profiling_info : Bool) (s n : Nat)
    (hn : 1 < n) (hk : Nat.clog 2 (n + 1) ≤ s + 1) (h32 : Nat.clog 2 (n + 1) ≤ 32) :
    ∃ d d', returned_domain (get_evaluation_domain inhibit_profiling_info s n) = .ok d ∧
      returned_domain (get_evaluation_domain inhibit_profiling_info s (n + 1)) = .ok d' ∧
      d.m ≤ d'.m := by
  rw [returned_domain_eq_select_spec _ _ _ h32,
    returned_domain_eq_select_spec _ _ _ ((Nat.clog_mono_right 2 (Nat.le_succ n)).trans h32)]
  exact select_spec_mono s n hn hk

/-- For a power of two `2 ^ k` with `1 ≤ k ≤ 32` and `k ≤ s + 1` the code chooses extended radix-2
when `k = s + 1` and basic radix-2 otherwise, of size exactly `2 ^ k`. -/
theorem get_evaluation_domain_pow_of_le (inhibit_profiling_info : Bool) (s k : Nat)
    (hk0 : 0 < k) (hk : k ≤ s + 1) (h32 : k ≤ 32) :
    returned_domain (get_evaluation_domain inhibit_profiling_info s (2 ^ k)) =
      .ok ⟨if k = s + 1 then .extended_radix2 else .basic_radix2, 2 ^ k⟩ := by
  have hc : Nat.clog 2 (2 ^ k) = k := Nat.clog_pow 2 k Nat.one_lt_two
  have hn : 1 < 2 ^ k := Nat.one_lt_two_pow (by omega)
  rw [returned_domain_eq_select_spec _ _ _ (by rw [hc]; exact h32)]
  rcases select_spec_cases s (2 ^ k) hn (by rw [hc]; exact hk) with
    ⟨_, hs⟩ | ⟨hne, _⟩ | ⟨hne, _⟩
  · rw [hs, hc]
  · exact absurd (by rw [hc]) hne
  · exact absurd (by rw [hc]) hne

/-- For a request up to `2 ^ 32` that is not a power of two, with `big = 2 ^ (k - 1)`,
`small = n - big` and `rounded_small = 2 ^ ceil(log2 small)`: step radix-2 of size
`big + rounded_small` when `big ≠ rounded_small`, and otherwise basic radix-2 or extended radix-2
of that size according to `ceil(log2 (big + rounded_small)) < s + 1`. -/
theorem get_evaluation_domain_non_pow_of_clog_le (inhibit_profiling_info : Bool) (s n : Nat)
    (hn : 1 < n) (hk : Nat.clog 2 n ≤ s + 1) (h32 : Nat.clog 2 n ≤ 32)
    (hpow : n ≠ 2 ^ Nat.clog 2 n) :
    returned_domain (get_evaluation_domain inhibit_profiling_info s n) =
      .ok ⟨if 2 ^ (Nat.clog 2 n - 1) ≠ 2 ^ Nat.clog 2 (n - 2 ^ (Nat.clog 2 n - 1)) then
          .step_radix2
        else if Nat.clog 2
            (2 ^ (Nat.clog 2 n - 1) + 2 ^ Nat.clog 2 (n - 2 ^ (Nat.clog 2 n - 1))) < s + 1 then
          .basic_radix2
        else .extended_radix2,
        2 ^ (Nat.clog 2 n - 1) + 2 ^ Nat.clog 2 (n - 2 ^ (Nat.clog 2 n - 1))⟩ := by
  rw [returned_domain_eq_select_spec _ _ _ h32]
  unfold select_spec
  simp only [gt_iff_lt, hn, not_true_eq_false, if_false, hk, hpow, ne_eq, ite_not]
  split
  · split <;> rfl
  · rfl

/-! ## The claims -/

/-- C1 (fails on the code): the claim says that for every 2-adicity `s` and every `min_size > 1`
with `ceil(log2 min_size) ≤ s + 1` the call succeeds with a size `≥ min_size`. At `s = 32`,
`min_size = 2 ^ 33` the request is admissible, yet the 32-bit shifts give `1u << 33 = 2` and
`1u << 32 = 1`: the comparison with `min_size` fails, `big = 1`, `rounded_small = 2`, and the
call constructs step radix-2 with size `3 < min_size`. -/
theorem get_evaluation_domain_size_below_min_size :
    1 < 2 ^ 33 ∧ Nat.clog 2 (2 ^ 33) ≤ 32 + 1 ∧
      (∀ inhibit_profiling_info,
        returned_domain (get_evaluation_domain inhibit_profiling_info 32 (2 ^ 33)) =
          .ok ⟨.step_radix2, 3⟩) ∧
      ¬ (2 ^ 33 ≤ (3 : Nat)) := by
  refine ⟨by norm_num, ?_, ?_, by norm_num⟩
  · rw [← log2_eq_clog]; decide
  · intro b; cases b <;> decide

/-- C2 (fails on the code): the claim says the returned size is the least size of the chosen
class that is `≥ min_size`. At `s = 33`, `min_size = 2 ^ 33` the code chooses step radix-2 with
size `3`, which is below `min_size`, while `2 ^ 33 + 2 ^ 0` is a step radix-2 size (`33 ≤ s`)
that meets the request. -/
theorem get_evaluation_domain_not_least_of_family :
    1 < 2 ^ 33 ∧ Nat.clog 2 (2 ^ 33) ≤ 33 + 1 ∧
      (∀ inhibit_profiling_info,
        returned_domain (get_evaluation_domain inhibit_profiling_info 33 (2 ^ 33)) =
          .ok ⟨.step_radix2, 3⟩) ∧
      ¬ (2 ^ 33 ≤ (3 : Nat)) ∧
      admissible_size 33 .step_radix2 (2 ^ 33 + 2 ^ 0) ∧ 2 ^ 33 ≤ 2 ^ 33 + 2 ^ 0 := by
  refine ⟨by norm_num, ?_, ?_, by norm_num, ⟨33, 0, by norm_num, le_refl _, rfl⟩, by norm_num⟩
  · rw [← log2_eq_clog]; decide
  · intro b; cases b <;> decide

/-- C3: for every `min_size > 1` with `ceil(log2 min_size) ≥ s + 2` the call fails on the assertion
`log_min_size <= s + 1` (the configuration error) and returns no domain, whatever the setting of
`inhibit_profiling_info`. -/
theorem get_evaluation_domain_field_too_small (inhibit_profiling_info : Bool) (s min_size : Nat)
    (hmin : 1 < min_size) (hlog : s + 2 ≤ Nat.clog 2 min_size) :
    get_evaluation_domain inhibit_profiling_info s min_size =
      .error .log_min_size_assertion := by
  unfold get_evaluation_domain
  have h : ¬ Nat.clog 2 min_size ≤ s + 1 := by omega
  simp only [gt_iff_lt, hmin, not_true_eq_false, if_false, log2_eq_clog, h, not_false_eq_true,
    if_true]

/-- Witness for C3: 2-adicity `3` and `min_size = 17`, where `ceil(log2 17) = 5 = s + 2`. -/
theorem get_evaluation_domain_field_too_small_witness :
    1 < 17 ∧ 3 + 2 ≤ Nat.clog 2 17 ∧
      get_evaluation_domain false 3 17 = .error .log_min_size_assertion :=
  ⟨by decide, by rw [← log2_eq_clog]; decide,
    get_evaluation_domain_field_too_small false 3 17 (by decide)
      (by rw [← log2_eq_clog]; decide)⟩

/-- C4 (fails on the code): the claim says the returned size never shrinks from `min_size` to
`min_size + 1`. At `s = 32` both `2 ^ 32` and `2 ^ 32 + 1` are admissible; the first yields size
`2 ^ 32`, the second (where `1u << 32 = 1` gives `big = 1` and `rounded_small = 1`) yields
size `2`. -/
theorem get_evaluation_domain_not_monotone :
    1 < 2 ^ 32 ∧ Nat.clog 2 (2 ^ 32) ≤ 32 + 1 ∧ Nat.clog 2 (2 ^ 32 + 1) ≤ 32 + 1 ∧
      (∀ inhibit_profiling_info,
        returned_domain (get_evaluation_domain inhibit_profiling_info 32 (2 ^ 32)) =
          .ok ⟨.basic_radix2, 2 ^ 32⟩ ∧
        returned_domain (get_evaluation_domain inhibit_profiling_info 32 (2 ^ 32 + 1)) =
          .ok ⟨.basic_radix2, 2⟩) ∧
      (2 : Nat) < 2 ^ 32 := by
  refine ⟨by norm_num, ?_, ?_, ?_, by norm_num⟩
  · rw [← log2_eq_clog]; decide
  · rw [← log2_eq_clog]; decide
  · intro b; cases b <;> exact ⟨by decide, by decide⟩

/-- C5 (fails on the code): the claim says a power of two `2 ^ k` with `k ≤ s` yields basic
radix-2 of size exactly `2 ^ k`, and with `k = s + 1` extended radix-2 of that size. For `k = 33`
the comparison `min_size == (1u << 33)` is made against the 32-bit value `2`, the other branch
is taken with `big = 1u << 32 = 1` and `rounded_small = 1u << 33 = 2`, and the result is step
radix-2 of size `3`, both for `s = 33` (`k ≤ s`) and for `s = 32` (`k = s + 1`). -/
theorem get_evaluation_domain_pow_two_beyond_width :
    (∀ inhibit_profiling_info,
        returned_domain (get_evaluation_domain inhibit_profiling_info 33 (2 ^ 33)) =
          .ok ⟨.step_radix2, 3⟩ ∧
        returned_domain (get_evaluation_domain inhibit_profiling_info 33 (2 ^ 33)) ≠
          .ok ⟨.basic_radix2, 2 ^ 33⟩) ∧
      (∀ inhibit_profiling_info,
        returned_domain (get_evaluation_domain inhibit_profiling_info 32 (2 ^ 33)) =
          .ok ⟨.step_radix2, 3⟩ ∧
        returned_domain (get_evaluation_domain inhibit_profiling_info 32 (2 ^ 33)) ≠
          .ok ⟨.extended_radix2, 2 ^ 33⟩) := by
  constructor <;> intro b <;> cases b <;> exact ⟨by decide, by decide⟩

/-- C6 (fails on the code): for `min_size = 2 ^ 32 + 1` and `s = 32` the claim has `k = 33`,
`big = 2 ^ 32`, `small = 1`, `rounded_small = 1`, so `big ≠ rounded_small` and step radix-2 of
size `2 ^ 32 + 1` is to be selected. The code computes `big = 1u << 32 = 1`, `small = 2 ^ 32`
and `rounded_small = 1u << 32 = 1`, finds `big == rounded_small` and selects basic radix-2 of
size `2`. -/
theorem get_evaluation_domain_non_pow_beyond_width :
    Nat.clog 2 (2 ^ 32 + 1) = 33 ∧ 2 ^ 32 + 1 ≠ 2 ^ 33 ∧
      Nat.clog 2 (2 ^ 32 + 1 - 2 ^ (33 - 1)) = 0 ∧ 2 ^ (33 - 1) ≠ 2 ^ 0 ∧
      big (2 ^ 32 + 1) = 1 ∧ small (2 ^ 32 + 1) = 2 ^ 32 ∧ rounded_small (2 ^ 32 + 1) = 1 ∧
      (∀ inhibit_profiling_info,
        returned_domain (get_evaluation_domain inhibit_profiling_info 32 (2 ^ 32 + 1)) =
          .ok ⟨.basic_radix2, 2⟩ ∧
        returned_domain (get_evaluation_domain inhibit_profiling_info 32 (2 ^ 32 + 1)) ≠
          .ok ⟨.step_radix2, 2 ^ (33 - 1) + 2 ^ 0⟩) := by
  refine ⟨?_, by norm_num, ?_, by norm_num, by decide, by decide, by decide, ?_⟩
  · rw [← log2_eq_clog]; decide
  · rw [← log2_eq_clog]; decide
  · intro b; cases b <;> exact ⟨by decide, by decide⟩

/-- C7: every domain that `get_evaluation_domain` returns under its precondition (`min_size > 1`
and `ceil(log2 min_size) ≤ s + 1`) has the shape its class requires: a basic radix-2 domain has
size `2 ^ k` with `k ≤ s`, an extended radix-2 domain has size exactly `2 ^ (s + 1)`, and a step
radix-2 domain has size `2 ^ k + 2 ^ r` with `r < k` and `k ≤ s`. This holds for every `s`, also
where the shift count wraps around. -/
theorem get_evaluation_domain_shape (inhibit_profiling_info : Bool) (s min_size : Nat)
    (hmin : 1 < min_size) (hlog : Nat.clog 2 min_size ≤ s + 1) :
    ∃ d, returned_domain (get_evaluation_domain inhibit_profiling_info s min_size) = .ok d ∧
      (d.kind = .basic_radix2 → ∃ k, k ≤ s ∧ d.m = 2 ^ k) ∧
      (d.kind = .extended_radix2 → d.m = 2 ^ (s + 1)) ∧
      (d.kind = .step_radix2 → ∃ k r, r < k ∧ k ≤ s ∧ d.m = 2 ^ k + 2 ^ r) := by
  have h : ∃ d, returned_domain (get_evaluation_domain inhibit_profiling_info s min_size) =
      .ok d ∧ admissible_size s d.kind d.m := by
    by_cases h32 : Nat.clog 2 min_size ≤ 32
    · exact get_evaluation_domain_shape_of_clog_le inhibit_profiling_info s min_size hmin hlog
        h32
    · exact get_evaluation_domain_shape_of_clog_gt inhibit_profiling_info s min_size hmin hlog
        (by omega)
  obtain ⟨d, hd, hsh⟩ := h
  refine ⟨d, hd, ?_, ?_, ?_⟩ <;> intro hkind <;> rw [hkind] at hsh <;> exact hsh

/-- Witness for C7: 2-adicity `33` and `min_size = 2 ^ 33 + 1`, a request beyond `2 ^ 32`, for
which the call returns basic radix-2 of size `4 = 2 ^ 2`. -/
theorem get_evaluation_domain_shape_witness :
    1 < 2 ^ 33 + 1 ∧ Nat.clog 2 (2 ^ 33 + 1) ≤ 33 + 1 ∧
      ∃ d, returned_domain (get_evaluation_domain false 33 (2 ^ 33 + 1)) = .ok d ∧
        (d.kind = .basic_radix2 → ∃ k, k ≤ 33 ∧ d.m = 2 ^ k) ∧
        (d.kind = .extended_radix2 → d.m = 2 ^ (33 + 1)) ∧
        (d.kind = .step_radix2 → ∃ k r, r < k ∧ k ≤ 33 ∧ d.m = 2 ^ k + 2 ^ r) :=
  ⟨by norm_num, by rw [← log2_eq_clog]; decide,
    get_evaluation_domain_shape false 33 (2 ^ 33 + 1) (by norm_num)
      (by rw [← log2_eq_clog]; decide)⟩

/-- C8: for every sequence `domain` of `m` field elements, every `t` and every `idx < m` such
that `domain[idx]` differs from every other `domain[k]`, `lagrange_eval(m, domain, t, idx)`
returns the product over all `k ≠ idx` of `(t - domain[k]) / (domain[idx] - domain[k])`. -/
theorem lagrange_eval_eq_basis_polynomial {FieldT : Type} [Field FieldT] [DecidableEq FieldT]
    (m : Nat) (domain : List FieldT) (t : FieldT) (idx : Nat) (hm : m = domain.length)
    (hidx : idx < m)
    (hdistinct : ∀ k, k < m → k ≠ idx → domain.getD k 0 ≠ domain.getD idx 0) :
    lagrange_eval m domain t idx =
      .ok (∏ k in (Finset.range m).erase idx,
        (t - domain.getD k 0) / (domain.getD idx 0 - domain.getD k 0)) :=
  lagrange_eval_eq_formula m domain t idx hm hidx hdistinct

/-- Witness for C8: the points `0, 1, 2` over the rationals, `idx = 1`, `t = 5`. -/
theorem lagrange_eval_eq_basis_polynomial_witness :
    (3 = ([0, 1, 2] : List ℚ).length) ∧ 1 < 3 ∧
      (∀ k, k < 3 → k ≠ 1 → ([0, 1, 2] : List ℚ).getD k 0 ≠ ([0, 1, 2] : List ℚ).getD 1 0) ∧
      lagrange_eval 3 ([0, 1, 2] : List ℚ) 5 1 =
        .ok (∏ k in (Finset.range 3).erase 1,
          (5 - ([0, 1, 2] : List ℚ).getD k 0) /
            (([0, 1, 2] : List ℚ).getD 1 0 - ([0, 1, 2] : List ℚ).getD k 0)) :=
  ⟨rfl, by decide, by decide,
    lagrange_eval_eq_basis_polynomial 3 [0, 1, 2] 5 1 rfl (by decide) (by decide)⟩

/-- C9 (Lagrange delta property): for a domain of `m` pairwise distinct field elements and all
`idx, j < m`, `lagrange_eval(m, domain, domain[j], idx)` returns `1` if `j = idx` and `0`
otherwise. -/
theorem lagrange_eval_delta {FieldT : Type} [Field FieldT] [DecidableEq FieldT]
    (m : Nat) (domain : List FieldT) (idx j : Nat) (hm : m = domain.length)
    (hnodup : domain.Nodup) (hidx : idx < m) (hj : j < m) :
    lagrange_eval m domain (domain.getD j 0) idx = .ok (if j = idx then 1 else 0) := by
  rw [lagrange_eval_eq_formula m domain _ idx hm hidx
    (fun k hk hne => nodup_getD_ne hnodup (hm ▸ hk) (hm ▸ hidx) hne),
    lagrange_basis_formula_at_point m domain idx j hm hnodup hidx hj]

/-- Witness for C9: the points `0, 1, 2` over the rationals, `idx = 1`, `j = 2`. -/
theorem lagrange_eval_delta_witness :
    (3 = ([0, 1, 2] : List ℚ).length) ∧ ([0, 1, 2] : List ℚ).Nodup ∧ 1 < 3 ∧ 2 < 3 ∧
      lagrange_eval 3 ([0, 1, 2] : List ℚ) (([0, 1, 2] : List ℚ).getD 2 0) 1 =
        .ok (if 2 = 1 then 1 else 0) :=
  ⟨rfl, by decide, by decide, by decide,
    lagrange_eval_delta 3 [0, 1, 2] 1 2 rfl (by decide) (by decide) (by decide)⟩

/-- C10 (the Lagrange basis sums to one): for a domain of `m ≥ 1` pairwise distinct field
elements and every field element `t`, a domain point or not, every `lagrange_eval(m, domain, t,
idx)` with `idx < m` returns a value, and these values for `idx = 0 .. m - 1` add up to `1`. -/
theorem lagrange_eval_sum_eq_one {FieldT : Type} [Field FieldT] [DecidableEq FieldT]
    (m : Nat) (domain : List FieldT) (t : FieldT) (hm : m = domain.length) (hpos : 1 ≤ m)
    (hnodup : domain.Nodup) :
    ∃ L : Nat → FieldT,
      (∀ idx, idx < m → lagrange_eval m domain t idx = .ok (L idx)) ∧
      ∑ idx in Finset.range m, L idx = 1 :=
  ⟨lagrange_basis_formula m domain t,
    fun idx hidx => lagrange_eval_eq_formula m domain t idx hm hidx
      (fun _ hk hne => nodup_getD_ne hnodup (hm ▸ hk) (hm ▸ hidx) hne),
    lagrange_basis_formula_sum m domain t hm hpos hnodup⟩

/-- Witness for C10: the points `0, 1, 2` over the rationals and `t = 5`, not a domain point. -/
theorem lagrange_eval_sum_eq_one_witness :
    (3 = ([0, 1, 2] : List ℚ).length) ∧ 1 ≤ 3 ∧ ([0, 1, 2] : List ℚ).Nodup ∧
      ∃ L : Nat → ℚ,
        (∀ idx, idx < 3 → lagrange_eval 3 ([0, 1, 2] : List ℚ) 5 idx = .ok (L idx)) ∧
        ∑ idx in Finset.range 3, L idx = 1 :=
  ⟨rfl, by decide, by decide,
    lagrange_eval_sum_eq_one 3 [0, 1, 2] 5 rfl (by decide) (by decide)⟩

/-! ## Lagrange evaluation: when the denominator vanishes -/

/-- The denominator left by the loop is zero exactly when some other point equals
`domain[idx]`. -/
theorem lagrange_denom_eq_zero_iff {FieldT : Type} [Field FieldT] (m : Nat)
    (domain : List FieldT) (t : FieldT) (idx : Nat) :
    (lagrange_loop m domain t idx).2 = 0 ↔
      ∃ k, k < m ∧ k ≠ idx ∧ domain.getD k 0 = domain.getD idx 0 := by
  rw [lagrange_loop_eq, Finset.prod_eq_zero_iff]
  constructor
  · rintro ⟨k, hk, h0⟩
    rw [Finset.mem_erase, Finset.mem_range] at hk
    exact ⟨k, hk.2, hk.1, (sub_eq_zero.mp h0).symm⟩
  · rintro ⟨k, hk, hne, h⟩
    exact ⟨k, Finset.mem_erase.mpr ⟨hne, Finset.mem_range.mpr hk⟩, sub_eq_zero.mpr h.symm⟩

/-- Once both assertions hold, the outcome of `lagrange_eval` is decided by the denominator
alone. -/
theorem lagrange_eval_of_assertions {FieldT : Type} [Field FieldT] [DecidableEq FieldT]
    (m : Nat) (domain : List FieldT) (t : FieldT) (idx : Nat) (hm : m = domain.length)
    (hidx : idx < m) :
    lagrange_eval m domain t idx =
      if (lagrange_loop m domain t idx).2 = 0 then .error .division_by_zero
      else .ok ((lagrange_loop m domain t idx).1 * ((lagrange_loop m domain t idx).2)⁻¹) := by
  unfold lagrange_eval
  rw [if_neg (not_not.mpr hm), if_neg (not_not.mpr hidx)]
  simp only [inverse]
  split <;> rfl

/-! ## The claims, continued -/

/-- C11 (fails as stated): the claim says that any two equal points anywhere in the domain make
the denominator zero and the call fail. For the rational points `0, 1, 1` with `idx = 0` and
`t = 5` the points at indices `1` and `2` are equal, yet the denominator is `(0 - 1)(0 - 1) = 1`
and the call returns `16`. -/
theorem lagrange_eval_duplicate_elsewhere_returns :
    (3 = ([0, 1, 1] : List ℚ).length) ∧ 0 < 3 ∧ ¬ ([0, 1, 1] : List ℚ).Nodup ∧
      (∃ i j, i < 3 ∧ j < 3 ∧ i ≠ j ∧
        ([0, 1, 1] : List ℚ).getD i 0 = ([0, 1, 1] : List ℚ).getD j 0) ∧
      (lagrange_loop 3 ([0, 1, 1] : List ℚ) 5 0).2 = 1 ∧
      (lagrange_loop 3 ([0, 1, 1] : List ℚ) 5 0).2 ≠ 0 ∧
      lagrange_eval 3 ([0, 1, 1] : List ℚ) 5 0 = .ok 16 := by
  have hloop : lagrange_loop 3 ([0, 1, 1] : List ℚ) 5 0 = (16, 1) := by
    simp [lagrange_loop, lagrange_step, List.range_succ]
    norm_num
  refine ⟨rfl, by decide, by decide, ⟨1, 2, by decide, by decide, by decide, by decide⟩, ?_, ?_,
    ?_⟩
  · rw [hloop]
  · rw [hloop]; norm_num
  · rw [lagrange_eval_of_assertions 3 ([0, 1, 1] : List ℚ) 5 0 rfl (by decide), hloop]
    norm_num

/-- C11 (as amended): for every domain with `m == domain.size()` and every `idx < m`, if some
point at another index equals `domain[idx]`, then the denominator accumulated by `lagrange_eval`
is zero and the call fails with the division-by-zero error instead of returning a field
element. -/
theorem lagrange_eval_fails_of_duplicate_of_idx {FieldT : Type} [Field FieldT]
    [DecidableEq FieldT] (m : Nat) (domain : List FieldT) (t : FieldT) (idx : Nat)
    (hm : m = domain.length) (hidx : idx < m)
    (hdup : ∃ k, k < m ∧ k ≠ idx ∧ domain.getD k 0 = domain.getD idx 0) :
    (lagrange_loop m domain t idx).2 = 0 ∧
      lagrange_eval m domain t idx = .error .division_by_zero := by
  have h0 := (lagrange_denom_eq_zero_iff m domain t idx).mpr hdup
  exact ⟨h0, by rw [lagrange_eval_of_assertions m domain t idx hm hidx, if_pos h0]⟩

/-- Witness for the amended C11: the rational points `1, 1, 0` with `idx = 0`, where the point at
index `1` repeats `domain[0]`. -/
theorem lagrange_eval_fails_of_duplicate_of_idx_witness :
    (3 = ([1, 1, 0] : List ℚ).length) ∧ 0 < 3 ∧
      (∃ k, k < 3 ∧ k ≠ 0 ∧ ([1, 1, 0] : List ℚ).getD k 0 = ([1, 1, 0] : List ℚ).getD 0 0) ∧
      (lagrange_loop 3 ([1, 1, 0] : List ℚ) 5 0).2 = 0 ∧
      lagrange_eval 3 ([1, 1, 0] : List ℚ) 5 0 = .error .division_by_zero :=
  ⟨rfl, by decide, ⟨1, by decide, by decide, by decide⟩,
    lagrange_eval_fails_of_duplicate_of_idx 3 ([1, 1, 0] : List ℚ) 5 0 rfl (by decide)
      ⟨1, by decide, by decide, by decide⟩⟩

/-- C12: in a field with 2-adicity `s = 3`, `get_evaluation_domain(5)` has `big = 4`,
`small = 1`, `rounded_small = 1` and selects step radix-2 of size `5`, and
`get_evaluation_domain(9)` has `big = 8`, `small = 1`, `rounded_small = 1` and selects step
radix-2 of size `9`. -/
theorem get_evaluation_domain_scenario_step :
    (big 5 = 4 ∧ small 5 = 1 ∧ rounded_small 5 = 1 ∧
      ∀ inhibit_profiling_info,
        returned_domain (get_evaluation_domain inhibit_profiling_info 3 5) =
          .ok ⟨.step_radix2, 5⟩) ∧
    (big 9 = 8 ∧ small 9 = 1 ∧ rounded_small 9 = 1 ∧
      ∀ inhibit_profiling_info,
        returned_domain (get_evaluation_domain inhibit_profiling_info 3 9) =
          .ok ⟨.step_radix2, 9⟩) := by
  refine ⟨⟨by decide, by decide, by decide, ?_⟩, ⟨by decide, by decide, by decide, ?_⟩⟩ <;>
    intro b <;> cases b <;> decide

/-- C13: in a field with 2-adicity `s = 3`, `get_evaluation_domain(8)` selects basic radix-2 of
size `8` and `get_evaluation_domain(16)` selects extended radix-2 of size `16`. -/
theorem get_evaluation_domain_scenario_pow_two :
    ∀ inhibit_profiling_info,
      returned_domain (get_evaluation_domain inhibit_profiling_info 3 8) =
        .ok ⟨.basic_radix2, 8⟩ ∧
      returned_domain (get_evaluation_domain inhibit_profiling_info 3 16) =
        .ok ⟨.extended_radix2, 16⟩ := by
  intro b; cases b <;> exact ⟨by decide, by decide⟩

/-- C16: diagnostic logging does not affect selection. For every `s` and `min_size` the call
has the same outcome (the same assertion failure, or the same class and the same size) whatever
the value of `inhibit_profiling_info`; only the printed text can differ. -/
theorem get_evaluation_domain_logging_irrelevant (s min_size : Nat) :
    ∀ b b' : Bool, returned_domain (get_evaluation_domain b s min_size) =
      returned_domain (get_evaluation_domain b' s min_size) := by
  intro b b'
  unfold returned_domain get_evaluation_domain
  dsimp only
  cases b <;> cases b' <;> (split_ifs <;> rfl)

/-- C19: for every domain with `m == domain.size()` and every `idx < m`, the denominator
accumulated by `lagrange_eval` is zero, and the call fails on the final inversion, if and only if
`domain[k] == domain[idx]` for some `k ≠ idx`; when no other point equals `domain[idx]` the call
returns a value, whatever duplicates there are among the other points. -/
theorem lagrange_eval_fails_iff_idx_duplicated {FieldT : Type} [Field FieldT]
    [DecidableEq FieldT] (m : Nat) (domain : List FieldT) (t : FieldT) (idx : Nat)
    (hm : m = domain.length) (hidx : idx < m) :
    ((lagrange_loop m domain t idx).2 = 0 ↔
        ∃ k, k < m ∧ k ≠ idx ∧ domain.getD k 0 = domain.getD idx 0) ∧
      (lagrange_eval m domain t idx = .error .division_by_zero ↔
        ∃ k, k < m ∧ k ≠ idx ∧ domain.getD k 0 = domain.getD idx 0) ∧
      ((¬ ∃ k, k < m ∧ k ≠ idx ∧ domain.getD k 0 = domain.getD idx 0) →
        ∃ v, lagrange_eval m domain t idx = .ok v) := by
  have hiff := lagrange_denom_eq_zero_iff m domain t idx
  have hev := lagrange_eval_of_assertions m domain t idx hm hidx
  refine ⟨hiff, ?_, ?_⟩
  · rw [← hiff, hev]
    constructor
    · intro h
      by_contra h0
      rw [if_neg h0] at h
      cases h
    · intro h0
      rw [if_pos h0]
  · intro hno
    rw [← hiff] at hno
    exact ⟨_, by rw [hev, if_neg hno]⟩

/-- Witness for C19: the rational points `0, 1, 1` with `idx = 0`; the duplicate sits at the
indices `1` and `2`, away from `idx`. -/
theorem lagrange_eval_fails_iff_idx_duplicated_witness :
    (3 = ([0, 1, 1] : List ℚ).length) ∧ 0 < 3 ∧
      (((lagrange_loop 3 ([0, 1, 1] : List ℚ) 5 0).2 = 0 ↔
          ∃ k, k < 3 ∧ k ≠ 0 ∧ ([0, 1, 1] : List ℚ).getD k 0 = ([0, 1, 1] : List ℚ).getD 0 0) ∧
        (lagrange_eval 3 ([0, 1, 1] : List ℚ) 5 0 = .error .division_by_zero ↔
          ∃ k, k < 3 ∧ k ≠ 0 ∧ ([0, 1, 1] : List ℚ).getD k 0 = ([0, 1, 1] : List ℚ).getD 0 0) ∧
        ((¬ ∃ k, k < 3 ∧ k ≠ 0 ∧
            ([0, 1, 1] : List ℚ).getD k 0 = ([0, 1, 1] : List ℚ).getD 0 0) →
          ∃ v, lagrange_eval 3 ([0, 1, 1] : List ℚ) 5 0 = .ok v)) :=
  ⟨rfl, by decide,
    lagrange_eval_fails_iff_idx_duplicated 3 ([0, 1, 1] : List ℚ) 5 0 rfl (by decide)⟩

/-- C20: for every 2-adicity `s ≤ 30` and every `min_size > 1` with
`ceil(log2 min_size) ≤ s + 1`, every shift `1u << e` the call evaluates (there is at least the
one with `e = log_min_size`) has `e ≤ 31` and so loses no bit, and the call returns the class and
size that the rule with exact powers of two returns. -/
theorem get_evaluation_domain_no_truncation (inhibit_profiling_info : Bool) (s min_size : Nat)
    (hs : s ≤ 30) (hmin : 1 < min_size) (hlog : Nat.clog 2 min_size ≤ s + 1) :
    log2 min_size ∈ evaluated_shifts s min_size ∧
      (∀ e, e ∈ evaluated_shifts s min_size → e ≤ 31 ∧ shl32 e = 2 ^ e) ∧
      returned_domain (get_evaluation_domain inhibit_profiling_info s min_size) =
        select_spec s min_size := by
  have hk31 : Nat.clog 2 min_size ≤ 31 := by omega
  have hsmall := clog_small_le hmin
  have hbig : big min_size = 2 ^ (Nat.clog 2 min_size - 1) := by
    unfold big
    rw [log2_eq_clog]
    exact shl32_of_le (by omega)
  have hbound : ∀ e, e ∈ evaluated_shifts s min_size → e ≤ 31 := by
    intro e he
    unfold evaluated_shifts at he
    simp only [gt_iff_lt, hmin, not_true_eq_false, if_false, log2_eq_clog, hlog, small,
      hbig] at he
    split at he
    · simp only [List.mem_singleton] at he
      omega
    · simp only [List.mem_cons, List.mem_singleton, List.mem_nil_iff, or_false] at he
      rcases he with he | he | he <;> omega
  refine ⟨?_, fun e he => ⟨hbound e he, shl32_of_le (hbound e he)⟩,
    returned_domain_eq_select_spec _ _ _ (by omega)⟩
  unfold evaluated_shifts
  simp only [gt_iff_lt, hmin, not_true_eq_false, if_false, log2_eq_clog, hlog]
  split <;> simp

/-- Witness for C20: 2-adicity `3` and `min_size = 5`. -/
theorem get_evaluation_domain_no_truncation_witness :
    3 ≤ 30 ∧ 1 < 5 ∧ Nat.clog 2 5 ≤ 3 + 1 ∧
      log2 5 ∈ evaluated_shifts 3 5 ∧
      (∀ e, e ∈ evaluated_shifts 3 5 → e ≤ 31 ∧ shl32 e = 2 ^ e) ∧
      returned_domain (get_evaluation_domain false 3 5) = select_spec 3 5 :=
  ⟨by decide, by decide, by rw [← log2_eq_clog]; decide,
    get_evaluation_domain_no_truncation false 3 5 (by decide) (by decide)
      (by rw [← log2_eq_clog]; decide)⟩

/-! ## Domain selection: rounding up to the next power of two -/

/-- A request that is not a power of two has `ceil(log2 n) ≥ 2`. -/
theorem two_le_clog_of_not_pow {n : Nat} (hn : 1 < n) (hpow : n ≠ 2 ^ Nat.clog 2 n) :
    2 ≤ Nat.clog 2 n := by
  obtain ⟨hpos, _, hhi⟩ := clog_bounds hn
  by_contra hc
  have h1 : Nat.clog 2 n = 1 := by omega
  rw [h1] at hhi hpow
  norm_num at hhi hpow
  omega

/-- For requests up to `2 ^ 32` the locals `big` and `rounded_small` are the exact powers. -/
theorem big_rounded_small_of_clog_le {n : Nat} (hn : 1 < n) (h32 : Nat.clog 2 n ≤ 32) :
    big n = 2 ^ (Nat.clog 2 n - 1) ∧
      rounded_small n = 2 ^ Nat.clog 2 (n - 2 ^ (Nat.clog 2 n - 1)) := by
  obtain ⟨hpos, _, _⟩ := clog_bounds hn
  have hr := clog_small_le hn
  have hbig : big n = 2 ^ (Nat.clog 2 n - 1) := by
    unfold big
    rw [log2_eq_clog]
    exact shl32_of_le (by omega)
  refine ⟨hbig, ?_⟩
  unfold rounded_small small
  rw [hbig, log2_eq_clog]
  exact shl32_of_le (by omega)

/-- For a request up to `2 ^ 32` that is not a power of two: `big == rounded_small` holds exactly
when `min_size > 2 ^ (k - 1) + 2 ^ (k - 2)`, and then the combined size is `2 ^ k` and the call
returns what it returns for the request `2 ^ k`. -/
theorem get_evaluation_domain_rounds_to_pow_of_clog_le (inhibit_profiling_info : Bool)
    (s n : Nat) (hn : 1 < n) (hpow : n ≠ 2 ^ Nat.clog 2 n) (hk : Nat.clog 2 n ≤ s + 1)
    (h32 : Nat.clog 2 n ≤ 32) :
    (big n = rounded_small n ↔ 2 ^ (Nat.clog 2 n - 1) + 2 ^ (Nat.clog 2 n - 2) < n) ∧
      (big n = rounded_small n →
        big n + rounded_small n = 2 ^ Nat.clog 2 n ∧
        returned_domain (get_evaluation_domain inhibit_profiling_info s n) =
          returned_domain (get_evaluation_domain inhibit_profiling_info s
            (2 ^ Nat.clog 2 n))) := by
  obtain ⟨hpos, hlo, hhi⟩ := clog_bounds hn
  have hk2 := two_le_clog_of_not_pow hn hpow
  have hr := clog_small_le hn
  obtain ⟨hbig, hrs⟩ := big_rounded_small_of_clog_le hn h32
  have hiff : big n = rounded_small n ↔
      Nat.clog 2 (n - 2 ^ (Nat.clog 2 n - 1)) = Nat.clog 2 n - 1 := by
    rw [hbig, hrs]
    constructor
    · intro h
      exact (Nat.pow_right_injective (le_refl 2) h).symm
    · intro h
      rw [h]
  have hle : Nat.clog 2 (n - 2 ^ (Nat.clog 2 n - 1)) ≤ Nat.clog 2 n - 2 ↔
      n - 2 ^ (Nat.clog 2 n - 1) ≤ 2 ^ (Nat.clog 2 n - 2) :=
    (Nat.le_pow_iff_clog_le Nat.one_lt_two).symm
  refine ⟨?_, ?_⟩
  · rw [hiff]
    constructor
    · intro h
      by_contra hc
      have : Nat.clog 2 (n - 2 ^ (Nat.clog 2 n - 1)) ≤ Nat.clog 2 n - 2 := hle.mpr (by omega)
      omega
    · intro h
      by_contra hc
      have : n - 2 ^ (Nat.clog 2 n - 1) ≤ 2 ^ (Nat.clog 2 n - 2) := hle.mp (by omega)
      omega
  · intro heq
    have hre := hiff.mp heq
    refine ⟨by rw [hbig, hrs, hre, two_pow_pred_add_self hpos], ?_⟩
    rw [get_evaluation_domain_pow_of_le inhibit_profiling_info s _ hpos hk h32,
      returned_domain_eq_select_spec _ _ _ h32]
    rcases select_spec_cases s n hn hk with ⟨h, _⟩ | ⟨_, _, hs⟩ | ⟨_, hlt, _⟩
    · exact absurd h hpow
    · rw [hs]
      by_cases hks : Nat.clog 2 n = s + 1
      · simp [hks]
      · have : Nat.clog 2 n < s + 1 := by omega
        simp [hks, this]
    · omega

/-- For requests up to `2 ^ 32` the returned size is the least number with at most two bits set
that is at least the request, and it does not exceed `2 ^ ceil(log2 min_size)`. -/
theorem get_evaluation_domain_least_two_bits_of_clog_le (inhibit_profiling_info : Bool)
    (s n : Nat) (hn : 1 < n) (hk : Nat.clog 2 n ≤ s + 1) (h32 : Nat.clog 2 n ≤ 32) :
    ∃ d, returned_domain (get_evaluation_domain inhibit_profiling_info s n) = .ok d ∧
      n ≤ d.m ∧ at_most_two_bits d.m ∧ (∀ x, at_most_two_bits x → n ≤ x → d.m ≤ x) ∧
      d.m ≤ 2 ^ Nat.clog 2 n := by
  rw [returned_domain_eq_select_spec _ _ _ h32]
  obtain ⟨d, hd, hge, hle⟩ := select_spec_size s n hn hk
  obtain ⟨d', hd', hsh⟩ := select_spec_shape s n hn hk
  rw [hd] at hd'
  cases hd'
  refine ⟨d, hd, hge, admissible_size_two_bits hsh, ?_, hle⟩
  intro x hx hnx
  obtain ⟨d'', hd'', hmin⟩ := select_spec_least s n hn hk x hx hnx
  rw [hd] at hd''
  cases hd''
  exact hmin

/-- C18 (fails on the code): the claim says the returned size is the least `x ≥ min_size` with at
most two bits set. At `s = 40`, `min_size = 2 ^ 33 + 2 ^ 32`, itself a sum of two distinct powers
of two (so the least such `x` is `min_size`), the call is admissible (`ceil(log2 min_size) = 34`)
and, with `big = 1u << 33 = 2` and `rounded_small = 1u << 34 = 4`, returns step radix-2 of size
`6`, which is below `min_size`. -/
theorem get_evaluation_domain_not_least_two_bits :
    1 < 2 ^ 33 + 2 ^ 32 ∧ Nat.clog 2 (2 ^ 33 + 2 ^ 32) ≤ 40 + 1 ∧
      at_most_two_bits (2 ^ 33 + 2 ^ 32) ∧
      (∀ inhibit_profiling_info,
        returned_domain (get_evaluation_domain inhibit_profiling_info 40 (2 ^ 33 + 2 ^ 32)) =
          .ok ⟨.step_radix2, 6⟩) ∧
      ¬ (2 ^ 33 + 2 ^ 32 ≤ (6 : Nat)) := by
  refine ⟨by norm_num, ?_, Or.inr ⟨33, 32, by norm_num, rfl⟩, ?_, by norm_num⟩
  · rw [← log2_eq_clog]; decide
  · intro b; cases b <;> decide

/-! ## Miller loops -/

/-- The final corrections multiply the accumulator by the product of the remaining lines. -/
theorem final_corrections_eq {Fqk G1_precomp Coeff : Type} [CommMonoid Fqk]
    (line : Coeff → G1_precomp → Fqk) (prec_P : G1_precomp) (coeffs : List Coeff) (f : Fqk) :
    final_corrections line prec_P coeffs f = f * (coeffs.map (fun c => line c prec_P)).prod := by
  unfold final_corrections
  induction coeffs generalizing f with
  | nil => simp
  | cons c cs ih => rw [List.foldl_cons, ih, List.map_cons, List.prod_cons, mul_assoc]

/-- The shared iteration started at `f1 * f2` carries the product of the accumulators of the two
separate loops started at `f1` and `f2`, and leaves the same unused coefficients; it runs out of
coefficients exactly when one of the separate loops does. -/
theorem double_miller_loop_bits_eq {Fqk G1_precomp Coeff : Type} [CommMonoid Fqk]
    (line : Coeff → G1_precomp → Fqk) (prec_P1 prec_P2 : G1_precomp) (bits : List Bool) :
    ∀ (coeffs1 coeffs2 : List Coeff) (f1 f2 : Fqk),
      double_miller_loop_bits line prec_P1 prec_P2 bits coeffs1 coeffs2 (f1 * f2) =
        Option.map₂ (fun a b => (a.1 * b.1, a.2, b.2))
          (miller_loop_bits line prec_P1 bits coeffs1 f1)
          (miller_loop_bits line prec_P2 bits coeffs2 f2) := by
  induction bits with
  | nil => intro coeffs1 coeffs2 f1 f2; simp [double_miller_loop_bits, miller_loop_bits]
  | cons bit bits ih =>
    intro coeffs1 coeffs2 f1 f2
    cases coeffs1 with
    | nil => simp [double_miller_loop_bits, miller_loop_bits]
    | cons c1 cs1 =>
      cases coeffs2 with
      | nil => simp [double_miller_loop_bits, miller_loop_bits]
      | cons c2 cs2 =>
        cases bit with
        | false =>
          have h : f1 * f2 * (f1 * f2) * line c1 prec_P1 * line c2 prec_P2 =
              (f1 * f1 * line c1 prec_P1) * (f2 * f2 * line c2 prec_P2) := by
            simp only [mul_assoc, mul_left_comm, mul_comm]
          simp only [double_miller_loop_bits, miller_loop_bits, Bool.false_eq_true, if_false]
          rw [h, ih]
        | true =>
          cases cs1 with
          | nil => simp [double_miller_loop_bits, miller_loop_bits]
          | cons a1 cs1 =>
            cases cs2 with
            | nil => simp [double_miller_loop_bits, miller_loop_bits]
            | cons a2 cs2 =>
              have h : f1 * f2 * (f1 * f2) * line c1 prec_P1 * line c2 prec_P2 *
                  line a1 prec_P1 * line a2 prec_P2 =
                  (f1 * f1 * line c1 prec_P1 * line a1 prec_P1) *
                    (f2 * f2 * line c2 prec_P2 * line a2 prec_P2) := by
                simp only [mul_assoc, mul_left_comm, mul_comm]
              simp only [double_miller_loop_bits, miller_loop_bits, if_true]
              rw [h, ih]

/-- A Miller loop returns a value as soon as the precomputed sequence holds one line per bit of
the loop count and one more per set bit. -/
theorem miller_loop_bits_isSome {Fqk G1_precomp Coeff : Type} [CommMonoid Fqk]
    (line : Coeff → G1_precomp → Fqk) (prec_P : G1_precomp) (bits : List Bool) :
    ∀ (coeffs : List Coeff) (f : Fqk), bits.length + bits.count true ≤ coeffs.length →
      (miller_loop_bits line prec_P bits coeffs f).isSome = true := by
  induction bits with
  | nil => intro coeffs f _; simp [miller_loop_bits]
  | cons bit bits ih =>
    intro coeffs f h
    cases coeffs with
    | nil => simp at h
    | cons c cs =>
      cases bit with
      | false =>
        simp only [miller_loop_bits, Bool.false_eq_true, if_false]
        apply ih
        simp at h
        omega
      | true =>
        cases cs with
        | nil =>
          simp only [List.length_cons, List.count_cons_self, List.length_nil] at h
          omega
        | cons a cs =>
          simp only [miller_loop_bits, if_true]
          apply ih
          simp at h
          omega

/-- With enough precomputed lines `miller_loop` returns an element of `Fqk`. -/
theorem miller_loop_returns {Fqk G1_precomp Coeff : Type} [CommMonoid Fqk]
    (params : miller_params Fqk G1_precomp Coeff) (prec_P : G1_precomp) (prec_Q : List Coeff)
    (h : params.loop_count.length + params.loop_count.count true ≤ prec_Q.length) :
    ∃ f, miller_loop params prec_P prec_Q = some f := by
  have hs := miller_loop_bits_isSome params.line prec_P params.loop_count prec_Q 1 h
  unfold miller_loop
  cases hb : miller_loop_bits params.line prec_P params.loop_count prec_Q 1 with
  | none => rw [hb] at hs; simp at hs
  | some r => exact ⟨_, rfl⟩

/-- C14: for all precomputed inputs, `double_miller_loop(prec_P1, prec_Q1, prec_P2, prec_Q2)`
equals `miller_loop(prec_P1, prec_Q1)` multiplied in `Fqk` by `miller_loop(prec_P2, prec_Q2)`;
it is undefined (a coefficient sequence ends too early) exactly when one of the two factors
is. -/
theorem double_miller_loop_eq_product {Fqk G1_precomp Coeff : Type} [CommMonoid Fqk]
    (params : miller_params Fqk G1_precomp Coeff) (prec_P1 : G1_precomp) (prec_Q1 : List Coeff)
    (prec_P2 : G1_precomp) (prec_Q2 : List Coeff) :
    double_miller_loop params prec_P1 prec_Q1 prec_P2 prec_Q2 =
      Option.map₂ (fun a b => a * b) (miller_loop params prec_P1 prec_Q1)
        (miller_loop params prec_P2 prec_Q2) := by
  unfold double_miller_loop miller_loop
  have h := double_miller_loop_bits_eq params.line prec_P1 prec_P2 params.loop_count
    prec_Q1 prec_Q2 1 1
  rw [mul_one] at h
  rw [h]
  cases h1 : miller_loop_bits params.line prec_P1 params.loop_count prec_Q1 1 with
  | none => simp
  | some r1 =>
    cases h2 : miller_loop_bits params.line prec_P2 params.loop_count prec_Q2 1 with
    | none => simp
    | some r2 =>
      obtain ⟨a, rest1⟩ := r1
      obtain ⟨b, rest2⟩ := r2
      simp only [Option.map₂_some_some, final_corrections_eq, Option.some.injEq]
      simp only [mul_assoc, mul_left_comm, mul_comm]

/-! ## Domain selection: requests above `2 ^ (k - 1) + 2 ^ (k - 2)` -/

/-- A number in `(2 ^ (k - 1), 2 ^ k]` has `ceil(log2) = k`. -/
theorem clog_eq_of_bounds {m k : Nat} (hlo : 2 ^ (k - 1) < m) (hhi : m ≤ 2 ^ k)
    (hk : 0 < k) : Nat.clog 2 m = k := by
  apply le_antisymm ((Nat.le_pow_iff_clog_le Nat.one_lt_two).mp hhi)
  by_contra hc
  have h1 : Nat.clog 2 m ≤ k - 1 := by omega
  have h2 := (Nat.le_pow_iff_clog_le Nat.one_lt_two).mpr h1
  omega

/-- Whatever the 2-adicity, a request above `2 ^ (k - 1) + 2 ^ (k - 2)` that is not a power of
two is answered like the request `2 ^ k`. (Beyond `2 ^ 32` both calls compute the same 32-bit
values of `big` and `rounded_small`, so both answers are equally short of the request.) -/
theorem get_evaluation_domain_eq_at_pow (inhibit_profiling_info : Bool) (s n : Nat)
    (hn : 1 < n) (hpow : n ≠ 2 ^ Nat.clog 2 n) (hk : Nat.clog 2 n ≤ s + 1)
    (hgt : 2 ^ (Nat.clog 2 n - 1) + 2 ^ (Nat.clog 2 n - 2) < n) :
    returned_domain (get_evaluation_domain inhibit_profiling_info s n) =
      returned_domain (get_evaluation_domain inhibit_profiling_info s (2 ^ Nat.clog 2 n)) := by
  by_cases h32 : Nat.clog 2 n ≤ 32
  · obtain ⟨hiff, himp⟩ :=
      get_evaluation_domain_rounds_to_pow_of_clog_le inhibit_profiling_info s n hn hpow hk h32
    exact (himp (hiff.mpr hgt)).2
  · obtain ⟨hpos, hlo, hhi⟩ := clog_bounds hn
    have hc : Nat.clog 2 (2 ^ Nat.clog 2 n) = Nat.clog 2 n :=
      Nat.clog_pow 2 _ Nat.one_lt_two
    have h1 : 1 < 2 ^ Nat.clog 2 n := Nat.one_lt_two_pow (by omega)
    have hp31 : 2 ^ 31 ≤ 2 ^ (Nat.clog 2 n - 2) :=
      Nat.pow_le_pow_right (by norm_num) (by omega)
    have hp2 : 2 ^ (Nat.clog 2 n - 1) = 2 * 2 ^ (Nat.clog 2 n - 2) := by
      have : Nat.clog 2 n - 1 = (Nat.clog 2 n - 2) + 1 := by omega
      rw [this, pow_succ]; ring
    have hp : 2 ^ Nat.clog 2 n = 2 * 2 ^ (Nat.clog 2 n - 1) := by
      have := two_pow_pred_add_self hpos
      omega
    have hbig : big (2 ^ Nat.clog 2 n) = big n := by
      unfold big
      rw [log2_eq_clog, log2_eq_clog, hc]
    have hble : big n ≤ 2 ^ 31 := shl32_le _
    have hs1 : Nat.clog 2 (small n) = Nat.clog 2 n := by
      unfold small
      exact clog_eq_of_bounds (by omega) (by omega) hpos
    have hs2 : Nat.clog 2 (small (2 ^ Nat.clog 2 n)) = Nat.clog 2 n := by
      unfold small
      rw [hbig]
      exact clog_eq_of_bounds (by omega) (by omega) hpos
    have hrs : rounded_small (2 ^ Nat.clog 2 n) = rounded_small n := by
      unfold rounded_small
      rw [log2_eq_clog, log2_eq_clog, hs1, hs2]
    rw [(returned_domain_of_clog_gt inhibit_profiling_info s n hn hk (by omega)).1,
      (returned_domain_of_clog_gt inhibit_profiling_info s _ h1 (by rw [hc]; exact hk)
        (by rw [hc]; omega)).1, hbig, hrs]

end libsnark
